import Mathlib

/-
Verification of the mcp-filesystem server core:
a shallow embedding in Lean 4 of `src/utils/file-utils.ts` (edit engine,
bounded search) and the file-operation handlers, together with a
spec-derived model of the path sandbox (`validatePath`), and theorems
about the behaviour of these components.

Text is modelled as `List Char`; file-system paths as `List String`
(absolute, one entry per path segment).  External libraries used by the
source (createTwoFilesPatch from the diff package, and minimatch) are opaque
function parameters: every theorem quantifies over them.
-/

namespace MCPFS

/-- Text content: a JavaScript string, modelled as its list of characters. -/
abbrev Text := List Char

/-- Convert a Lean string literal to the `Text` model. -/
def toText (s : String) : Text := s.data

/-- Embedding of `normalizeLineEndings` (file-utils.ts line 154):
`text.replace(/\r\n/g, '\n')` — every (left-to-right, non-overlapping)
occurrence of CRLF is replaced by LF. -/
def normalizeLineEndings : Text → Text
  | '\r' :: '\n' :: rest => '\n' :: normalizeLineEndings rest
  | c :: rest => c :: normalizeLineEndings rest
  | [] => []

/-- JavaScript `String.prototype.includes`: substring (infix) test.
An empty pattern is included in every string, as in JavaScript. -/
def textIncludes (pat : Text) : Text → Bool
  | [] => pat.isPrefixOf []
  | c :: rest => pat.isPrefixOf (c :: rest) || textIncludes pat rest

/-- ECMA-262 GetSubstitution as it applies to `String.prototype.replace`
with a plain string pattern (no capture groups): in the replacement text,
a double dollar yields one dollar, dollar-ampersand yields the matched
text, a dollar followed by a backquote yields the portion of the string
before the match, a dollar followed by an apostrophe the portion after
it; every other character — including a dollar followed by anything else,
since a string pattern has no capture groups — is passed through
literally. -/
def getSubstitution (matched before after : Text) : Text → Text
  | [] => []
  | c :: rest =>
    if c = '$' then
      match rest with
      | [] => ['$']
      | d :: rest2 =>
        if d = '$' then '$' :: getSubstitution matched before after rest2
        else if d = '&' then matched ++ getSubstitution matched before after rest2
        else if d = '\x60' then before ++ getSubstitution matched before after rest2
        else if d = '\x27' then after ++ getSubstitution matched before after rest2
        else c :: d :: getSubstitution matched before after rest2
    else c :: getSubstitution matched before after rest

/-- The scan of JavaScript `String.prototype.replace` with a string
pattern: walk to the first (leftmost) occurrence of `pat`, carrying the
already-scanned prefix reversed in `preRev`, and splice in the
GetSubstitution expansion of `rep` (which needs the matched text and the
portions of the whole string before and after the match).  `none` when
`pat` does not occur. -/
def replaceFirstAux (pat rep : Text) : Text → Text → Option Text
  | preRev, [] =>
    if pat.isPrefixOf [] then
      some (preRev.reverse ++
        getSubstitution pat preRev.reverse (List.drop pat.length []) rep ++
        List.drop pat.length [])
    else none
  | preRev, c :: rest =>
    if pat.isPrefixOf (c :: rest) then
      some (preRev.reverse ++
        getSubstitution pat preRev.reverse (List.drop pat.length (c :: rest)) rep ++
        List.drop pat.length (c :: rest))
    else replaceFirstAux pat rep (c :: preRev) rest

/-- JavaScript `String.prototype.replace` with a plain string pattern:
replace the first (leftmost) occurrence of `pat` with the GetSubstitution
expansion of `rep`; `none` when `pat` does not occur.  (An empty pattern
matches at index 0, as in JavaScript.) -/
def replaceFirst? (pat rep s : Text) : Option Text :=
  replaceFirstAux pat rep [] s

example : normalizeLineEndings (toText "a\r\nb\r\n") = toText "a\nb\n" := by decide

example : replaceFirst? (toText "bar") (toText "baz") (toText "foo\nbar\n")
    = some (toText "foo\nbaz\n") := by decide

theorem isPrefixOf_true {l₁ l₂ : Text} : l₁.isPrefixOf l₂ = true ↔ l₁ <+: l₂ :=
  List.isPrefixOf_iff_prefix

theorem textIncludes_spec (pat s : Text) :
    textIncludes pat s = true ↔ pat <:+: s := by
  induction s with
  | nil =>
    rw [textIncludes, isPrefixOf_true]
    constructor
    · exact fun h => h.isInfix
    · intro h
      obtain ⟨l, r, hlr⟩ := h
      simp only [List.append_eq_nil] at hlr
      simp [hlr.1.2]
  | cons c rest ih =>
    rw [textIncludes]
    simp only [Bool.or_eq_true, isPrefixOf_true, ih, List.infix_cons_iff]

theorem replaceFirstAux_isSome (pat rep : Text) :
    ∀ (s preRev : Text),
      (replaceFirstAux pat rep preRev s).isSome = textIncludes pat s := by
  intro s
  induction s with
  | nil =>
    intro preRev
    rw [replaceFirstAux, textIncludes]
    by_cases h : pat.isPrefixOf ([] : Text) = true
    · simp [h]
    · simp [h]
  | cons c rest ih =>
    intro preRev
    rw [replaceFirstAux, textIncludes]
    by_cases h : pat.isPrefixOf (c :: rest) = true
    · simp [h]
    · simp [h, ih]

theorem replaceFirst?_isSome_iff (pat rep s : Text) :
    (replaceFirst? pat rep s).isSome = textIncludes pat s :=
  replaceFirstAux_isSome pat rep s []

theorem replaceFirstAux_eq_some (pat rep : Text) :
    ∀ (s preRev t : Text), replaceFirstAux pat rep preRev s = some t →
      ∃ pre post, s = pre ++ pat ++ post ∧
        t = preRev.reverse ++ pre ++
          getSubstitution pat (preRev.reverse ++ pre) post rep ++ post ∧
        ∀ pre' post', s = pre' ++ pat ++ post' → pre.length ≤ pre'.length := by
  intro s
  induction s with
  | nil =>
    intro preRev t h
    rw [replaceFirstAux] at h
    by_cases hp : pat.isPrefixOf ([] : Text) = true
    · rw [if_pos hp] at h
      have hpat : pat = [] := by
        have hl := (isPrefixOf_true.mp hp).length_le
        simp only [List.length_nil, Nat.le_zero] at hl
        exact List.eq_nil_of_length_eq_zero hl
      refine ⟨[], [], by simp [hpat], ?_, fun pre' post' _ => by simp⟩
      simp only [Option.some.injEq] at h
      simp [← h, hpat]
    · rw [if_neg hp] at h
      exact absurd h (by simp)
  | cons c rest ih =>
    intro preRev t h
    rw [replaceFirstAux] at h
    by_cases hp : pat.isPrefixOf (c :: rest) = true
    · rw [if_pos hp] at h
      have hpre : pat <+: c :: rest := isPrefixOf_true.mp hp
      obtain ⟨post, hpost⟩ := hpre
      refine ⟨[], post, by simp [hpost.symm], ?_, fun pre' post' _ => by simp⟩
      simp only [Option.some.injEq] at h
      have hdrop : List.drop pat.length (c :: rest) = post := by
        rw [← hpost]
        simp
      simp [← h, hdrop]
    · rw [if_neg hp] at h
      obtain ⟨pre₁, post, hrest, ht, hmin⟩ := ih (c :: preRev) t h
      refine ⟨c :: pre₁, post, by simp [hrest], ?_, ?_⟩
      · rw [ht]
        simp [List.reverse_cons, List.append_assoc]
      · intro pre' post' hsplit
        cases pre' with
        | nil =>
          exfalso
          apply hp
          apply isPrefixOf_true.mpr
          exact ⟨post', by simpa using hsplit.symm⟩
        | cons x xs =>
          have hx : c = x ∧ rest = xs ++ pat ++ post' := by
            have := hsplit
            simp only [List.cons_append, List.cons.injEq] at this
            exact this
          have := hmin xs post' hx.2
          simpa using this

theorem replaceFirst?_eq_some (pat rep s t : Text)
    (h : replaceFirst? pat rep s = some t) :
    ∃ pre post, s = pre ++ pat ++ post ∧
      t = pre ++ getSubstitution pat pre post rep ++ post ∧
      ∀ pre' post', s = pre' ++ pat ++ post' → pre.length ≤ pre'.length := by
  obtain ⟨pre, post, h1, h2, h3⟩ := replaceFirstAux_eq_some pat rep s [] t h
  exact ⟨pre, post, h1, by simpa using h2, h3⟩

theorem getSubstitution_no_dollar (matched before after : Text) :
    ∀ rep : Text, ¬ '$' ∈ rep →
      getSubstitution matched before after rep = rep := by
  intro rep
  induction rep with
  | nil => intro _; rfl
  | cons c rest ih =>
    intro h
    have hc : ¬ c = '$' := fun hc => h (hc ▸ List.mem_cons_self c rest)
    have hrest : ¬ '$' ∈ rest := fun hr => h (List.mem_cons_of_mem c hr)
    rw [getSubstitution.eq_def]
    simp only []
    rw [if_neg hc, ih hrest]

/-- JavaScript `str.split('\n')`: the list of lines of `s`, never empty;
`"" ↦ [""]`, `"a\n" ↦ ["a", ""]`. -/
def splitLines : Text → List Text
  | [] => [[]]
  | c :: rest =>
    if c = '\n' then [] :: splitLines rest
    else
      match splitLines rest with
      | [] => [[c]]
      | l :: ls => (c :: l) :: ls

/-- JavaScript `lines.join('\n')`. -/
def joinLines (ls : List Text) : Text := List.intercalate ['\n'] ls

/-- JavaScript whitespace test (the `\s` class restricted to the ASCII
whitespace characters that can occur in this code path). -/
def isWS (c : Char) : Bool :=
  c = ' ' || c = '\t' || c = '\r' || c = '\n' || c = '\x0b' || c = '\x0c'

/-- JavaScript leading-whitespace capture of file-utils.ts line 209: the regex match on leading whitespace, defaulting to the empty string. -/
def leadingWS (s : Text) : Text := s.takeWhile isWS

/-- JavaScript `String.prototype.trimStart`. -/
def trimStart (s : Text) : Text := s.dropWhile isWS

/-- JavaScript `String.prototype.trim`. -/
def trimText (s : Text) : Text := ((s.dropWhile isWS).reverse.dropWhile isWS).reverse

/-- One window comparison of the fuzzy matcher (file-utils.ts lines
201-205): every old line equals the corresponding content line after
trimming both. -/
def windowMatches (oldLines window : List Text) : Bool :=
  (List.zip oldLines window).all fun p => trimText p.1 = trimText p.2

/-- The `for` loop of file-utils.ts lines 198-227, search part: the first
index `i` (if any) with `i + oldLines.length ≤ contentLines.length` whose
window of `oldLines.length` content lines matches `oldLines` line-by-line
modulo trimming. -/
def findMatchIdx (oldLines : List Text) : List Text → Option Nat
  | [] =>
    if oldLines.length ≤ 0 ∧ windowMatches oldLines [] then some 0 else none
  | c :: rest =>
    if oldLines.length ≤ (c :: rest).length then
      if windowMatches oldLines ((c :: rest).take oldLines.length) then some 0
      else (findMatchIdx oldLines rest).map (· + 1)
    else none

/-- The indentation-reprojection of file-utils.ts lines 208-220: the
first replacement line inherits the leading whitespace of the matched block;
later lines add the (floored) relative indent delta when both the old and
new line have non-empty leading whitespace, and are kept as-authored
otherwise. -/
def reindentNewLines (originalIndent : Text) (oldLines newLines : List Text) :
    List Text :=
  newLines.mapIdx fun j line =>
    if j = 0 then originalIndent ++ trimStart line
    else
      let oldIndent := leadingWS (oldLines.getD j [])
      let newIndent := leadingWS line
      if oldIndent ≠ [] ∧ newIndent ≠ [] then
        originalIndent ++ List.replicate (newIndent.length - oldIndent.length) ' ' ++
          trimStart line
      else line

/-- An `EditOperation` as carried by an edit request. -/
structure EditOp where
  oldText : Text
  newText : Text
deriving DecidableEq, Repr

/-- One iteration of the edit loop of `applyFileEdits` (file-utils.ts
lines 183-232): normalize the edit's texts, try the exact substring
replacement first, otherwise the fuzzy line-block match with indentation
reprojection.  Returns the new content and a flag telling whether the
fuzzy branch was used; `none` is the `MatchFailure` case. -/
def applyOneEdit (content : Text) (e : EditOp) : Option (Text × Bool) :=
  let normalizedOld := normalizeLineEndings e.oldText
  let normalizedNew := normalizeLineEndings e.newText
  if textIncludes normalizedOld content then
    match replaceFirst? normalizedOld normalizedNew content with
    | some m => some (m, false)
    | none => none
  else
    let oldLines := splitLines normalizedOld
    let contentLines := splitLines content
    match findMatchIdx oldLines contentLines with
    | none => none
    | some i =>
      let originalIndent := leadingWS (contentLines.getD i [])
      let newLines := reindentNewLines originalIndent oldLines (splitLines normalizedNew)
      some (joinLines
        (contentLines.take i ++ newLines ++ contentLines.drop (i + oldLines.length)),
        true)

/-- The whole edit loop: edits are applied left-to-right against the
progressively modified content; the first edit that matches nowhere
aborts the request, reporting that edit's raw `oldText` (the thrown
message interpolates `edit.oldText`, not the normalized form). -/
def applyEditsLoop (content : Text) : List EditOp → Except Text Text
  | [] => .ok content
  | e :: rest =>
    match applyOneEdit content e with
    | some m => applyEditsLoop m.1 rest
    | none => .error e.oldText

/-- Embedding of `createUnifiedDiff` (file-utils.ts lines 158-171): the
external `createTwoFilesPatch` is an opaque parameter `patch`, applied to
the line-ending-normalized contents. -/
def createUnifiedDiff (patch : Text → Text → Text) (orig next : Text) : Text :=
  patch (normalizeLineEndings orig) (normalizeLineEndings next)

/-- The fence-sizing loop of file-utils.ts lines 238-241, fuelled: a run
of `n` backticks can only occur while `n ≤ d.length`, so the fuel
`d.length + 1` given below never runs out before the natural exit. -/
def fenceTicksGo (d : Text) : Nat → Nat → Nat
  | 0, n => n
  | fuel + 1, n =>
    if textIncludes (List.replicate n '\x60') d then fenceTicksGo d fuel (n + 1)
    else n

/-- The smallest `n` at or above the start value such that the diff does
not contain a run of `n` backticks. -/
def fenceTicks (d : Text) (n : Nat) : Nat := fenceTicksGo d (d.length + 1) n

/-- Embedding of `applyFileEdits` (file-utils.ts lines 173-249) as a
state-passing function: the stored file content is the explicit state.
Returns the request's result (the fenced diff, or the failing edit's old
text) and the store after the call: mutated to the final content exactly
when the loop succeeded and `dryRun` is false. -/
def applyFileEdits (patch : Text → Text → Text) (store : Text)
    (edits : List EditOp) (dryRun : Bool) : Except Text Text × Text :=
  let content := normalizeLineEndings store
  match applyEditsLoop content edits with
  | .error old => (.error old, store)
  | .ok modifiedContent =>
    let diff := createUnifiedDiff patch content modifiedContent
    let n := fenceTicks diff 3
    let formattedDiff :=
      List.replicate n '\x60' ++ toText "diff\n" ++ diff ++
        List.replicate n '\x60' ++ toText "\n\n"
    (.ok formattedDiff, if dryRun then store else modifiedContent)

/-- An absolute filesystem path, one entry per segment (`/a/b` is
`["a", "b"]`; the filesystem root is `[]`). -/
abbrev FsPath := List String

/-- Lexical canonicalization of an absolute path: drop empty and `.`
segments, let `..` pop the previous segment (at the root, `..` stays at
the root, as `path.resolve`/`path.join` normalization does).  Modelled
from the spec, section 4.1 step 2. -/
def lexCanonAbs (segs : FsPath) : FsPath :=
  segs.foldl
    (fun acc s =>
      if s = "" ∨ s = "." then acc
      else if s = ".." then acc.dropLast
      else acc ++ [s])
    []

/-- Rejection outcomes of the path sandbox (spec section 4.1 failure
modes); the `PathRejected` taxonomy class of spec section 7 covers all
three constructors. -/
inductive Rejection where
  | notFound
  | outsideSandbox
  | unresolvableSymlink
deriving DecidableEq, Repr

/-- A resolution step for one path prefix: not a symlink, a symlink with
a usable target, or a symlink that must be rejected (present but not in
the cache while following is disabled). -/
inductive LinkStep where
  | notLink
  | target (t : FsPath)
  | reject
deriving DecidableEq, Repr

/-- The effective per-prefix resolution policy (spec section 4.1 steps
3-4): with `followSymlinks` every symlink resolves to its real target;
without it, only cache-registered symlinks resolve, any other symlink is
rejected outright. -/
def effStep (links cache : FsPath → Option FsPath) (follow : Bool)
    (p : FsPath) : LinkStep :=
  match links p with
  | none => .notLink
  | some t =>
    if follow then .target t
    else
      match cache p with
      | some c => .target c
      | none => .reject

/-- Symlink resolution along the path chain (spec section 4.1 step 3),
fuel-bounded against symlink cycles: walk the canonical segments left to
right; a prefix that is a symlink is replaced by its (lexically
canonicalized) target and resolution restarts there. -/
def resolvePath (step : FsPath → LinkStep) :
    Nat → FsPath → FsPath → Except Rejection FsPath
  | _, resolved, [] => .ok resolved
  | 0, _, _ :: _ => .error .unresolvableSymlink
  | fuel + 1, resolved, s :: rest =>
    let p := resolved ++ [s]
    match step p with
    | .notLink => resolvePath step fuel p rest
    | .reject => .error .unresolvableSymlink
    | .target t => resolvePath step fuel [] (lexCanonAbs t ++ rest)

/-- Modelled from the spec: `validatePath` of `src/utils/path-utils.ts`
is not part of the provided sources (only its callers are), so the
sandbox contract of spec section 4.1 is modelled here: canonicalize
lexically, resolve symlinks per policy, require the parent to exist when
`checkParentExists` is set, then accept exactly when some allowed root is
a segment-aligned prefix of the resolution. -/
def validatePath (fuel : Nat) (allowedDirectories : List FsPath)
    (links cache : FsPath → Option FsPath) (follow : Bool)
    (existsFn : FsPath → Bool) (checkParentExists : Bool)
    (candidate : FsPath) : Except Rejection FsPath :=
  match resolvePath (effStep links cache follow) fuel [] (lexCanonAbs candidate) with
  | .error r => .error r
  | .ok resolved =>
    if checkParentExists ∧ ¬ existsFn resolved.dropLast then .error .notFound
    else if allowedDirectories.any (fun root => root.isPrefixOf resolved) then
      .ok resolved
    else .error .outsideSandbox

/-- The canonical resolution of a candidate path under a resolution
policy: lexical canonicalization followed by symlink resolution. -/
def canonicalResolution (step : FsPath → LinkStep) (fuel : Nat)
    (candidate : FsPath) : Except Rejection FsPath :=
  resolvePath step fuel [] (lexCanonAbs candidate)

/-- The permission flags (src/config/permissions.ts interface):
`fullAccess` subsumes the per-operation booleans. -/
structure Permissions where
  create : Bool
  edit : Bool
  move : Bool
  delete : Bool
  rename : Bool
  fullAccess : Bool
deriving DecidableEq, Repr

/-- The filesystem state a request mutates: regular files (path to
content) and the set of directories.  Used to model `fs.access`,
`fs.writeFile`, `fs.rename` in the handlers. -/
structure FSState where
  files : List (FsPath × Text)
  dirs : List FsPath
deriving DecidableEq, Repr

/-- A regular file exists at `p`. -/
def FSState.fileExists (st : FSState) (p : FsPath) : Bool :=
  st.files.any fun f => f.1 = p

/-- A directory exists at `p`. -/
def FSState.dirExists (st : FSState) (p : FsPath) : Bool :=
  st.dirs.any fun d => d = p

/-- `fs.access` succeeds: some entry (file or directory) exists at `p`. -/
def FSState.entryExists (st : FSState) (p : FsPath) : Bool :=
  st.fileExists p || st.dirExists p

/-- The content stored at a file path. -/
def FSState.readFile (st : FSState) (p : FsPath) : Option Text :=
  (st.files.find? fun f => f.1 = p).map Prod.snd

/-- `fs.writeFile`: create or overwrite the file at `p`. -/
def FSState.writeFile (st : FSState) (p : FsPath) (c : Text) : FSState :=
  { st with files := (st.files.filter fun f => f.1 ≠ p) ++ [(p, c)] }

/-- `fs.rename` (POSIX `rename(2)`): fails when the source file is
missing; otherwise the source entry is moved to the destination path,
silently replacing any file already there. -/
def FSState.renameFile (st : FSState) (src dst : FsPath) :
    Except String FSState :=
  match st.readFile src with
  | none => .error "ENOENT: no such file or directory, rename"
  | some c =>
    .ok { st with
          files := ((st.files.filter fun f => f.1 ≠ src).filter
            fun f => f.1 ≠ dst) ++ [(dst, c)] }

/-- The validation context a handler receives: allowed roots, symlink
map, symlink cache, the follow policy, and the resolution fuel. -/
structure SandboxCtx where
  fuel : Nat
  allowedDirectories : List FsPath
  links : FsPath → Option FsPath
  cache : FsPath → Option FsPath
  follow : Bool

/-- Run `validatePath` for a handler against the current filesystem
state (the existence oracle is the modelled state). -/
def SandboxCtx.validate (ctx : SandboxCtx) (st : FSState)
    (checkParentExists : Bool) (candidate : FsPath) : Except Rejection FsPath :=
  validatePath ctx.fuel ctx.allowedDirectories ctx.links ctx.cache ctx.follow
    (fun p => st.entryExists p) checkParentExists candidate

/-- Render a rejection as the error a handler propagates. -/
def rejectionMsg : Rejection → String
  | .notFound => "Parent directory does not exist"
  | .outsideSandbox => "Access denied - path outside allowed directories"
  | .unresolvableSymlink => "Access denied - symlink cannot be resolved"

/-- Embedding of `handleMoveFile` (file-utils.ts lines 457-495, handlers
source): permission check, validate source (parent must exist), validate
destination with `checkParentExists:false`, require the destination
parent to exist, then `fs.rename` — note the code never probes whether
the destination itself exists.  Message interpolation is elided. -/
def handleMoveFile (perms : Permissions) (ctx : SandboxCtx) (st : FSState)
    (source destination : FsPath) : Except String String × FSState :=
  if ¬ (perms.move ∨ perms.fullAccess) then
    (.error "Cannot move file: move permission not granted (requires --allow-move)", st)
  else
    match ctx.validate st true source with
    | .error r => (.error (rejectionMsg r), st)
    | .ok validSourcePath =>
      match ctx.validate st false destination with
      | .error r => (.error (rejectionMsg r), st)
      | .ok validDestPath =>
        let destParentDir := validDestPath.dropLast
        if ¬ st.entryExists destParentDir then
          (.error "Destination parent directory does not exist", st)
        else
          match st.renameFile validSourcePath validDestPath with
          | .error e => (.error e, st)
          | .ok st' => (.ok "Successfully moved file", st')

/-- Split a character list at every occurrence of `sep`. -/
def splitOnChar (sep : Char) : Text → List Text
  | [] => [[]]
  | c :: rest =>
    if c = sep then [] :: splitOnChar sep rest
    else
      match splitOnChar sep rest with
      | [] => [[c]]
      | l :: ls => (c :: l) :: ls

/-- The slash-separated segments of a name string. -/
def splitSlash (s : String) : List String :=
  (splitOnChar '/' s.data).map fun t => String.mk t

/-- JavaScript `path.join(directory, newName)` for an absolute
`directory`: append the (slash-split) segments of `newName` and
normalize lexically. -/
def pathJoinName (directory : FsPath) (newName : String) : FsPath :=
  lexCanonAbs (directory ++ splitSlash newName)

/-- Embedding of `handleRenameFile` (handlers source lines 528-573):
permission check, validate source, compute the destination by joining
the source directory with `newName`, validate it, fail when an entry
already exists there, then `fs.rename`. -/
def handleRenameFile (perms : Permissions) (ctx : SandboxCtx) (st : FSState)
    (source : FsPath) (newName : String) : Except String String × FSState :=
  if ¬ (perms.rename ∨ perms.fullAccess) then
    (.error "Cannot rename file: rename permission not granted (requires --allow-rename)", st)
  else
    match ctx.validate st true source with
    | .error r => (.error (rejectionMsg r), st)
    | .ok validSourcePath =>
      let directory := validSourcePath.dropLast
      let destinationPath := pathJoinName directory newName
      match ctx.validate st true destinationPath with
      | .error r => (.error (rejectionMsg r), st)
      | .ok validDestPath =>
        if st.entryExists validDestPath then
          (.error "Cannot rename file: a file with the new name already exists in the directory", st)
        else
          match st.renameFile validSourcePath validDestPath with
          | .error e => (.error e, st)
          | .ok st' => (.ok "Successfully renamed file", st')

/-- Embedding of `handleModifyFile` (handlers source lines 374-403).
The `fs.access` probe, the permission check and the write all sit inside
one `try` whose `catch` unconditionally reports
`Cannot modify file: file does not exist`; the embedding reproduces that
catch-all faithfully via `modifyTryBlock`. -/
def modifyTryBlock (perms : Permissions) (st : FSState) (validPath : FsPath)
    (content : Text) : Except String FSState :=
  if ¬ st.entryExists validPath then
    .error "ENOENT: no such file or directory, access"
  else if ¬ (perms.edit ∨ perms.fullAccess) then
    .error "Cannot modify file: edit permission not granted (requires --allow-edit)"
  else
    .ok (st.writeFile validPath content)

/-- The `handleModifyFile` handler: any failure inside the try block —
including the permission-denied throw — surfaces as the catch clause's
`file does not exist` error. -/
def handleModifyFile (perms : Permissions) (ctx : SandboxCtx) (st : FSState)
    (target : FsPath) (content : Text) : Except String String × FSState :=
  match ctx.validate st true target with
  | .error r => (.error (rejectionMsg r), st)
  | .ok validPath =>
    match modifyTryBlock perms st validPath content with
    | .ok st' => (.ok "Successfully modified file", st')
    | .error _ => (.error "Cannot modify file: file does not exist", st)

/-- A directory tree: what `fs.readdir(..., { withFileTypes: true })`
exposes of the filesystem to `searchFiles`. -/
inductive FSEntry where
  | file (name : String)
  | dir (name : String) (entries : List FSEntry)

/-- The `entry.name` accessor. -/
def FSEntry.name : FSEntry → String
  | .file n => n
  | .dir n _ => n

/-- State threaded through the walk: the shared `results` array, plus a
log of every `fs.readdir` call performed (directory path and the depth it
was visited at) — the filesystem calls of the walk. -/
structure SearchState where
  results : List FsPath
  listed : List (FsPath × Nat)
deriving DecidableEq, Repr

/-- Parameters of `searchFiles` (file-utils.ts lines 29-35); `mm` is the
external `minimatch`, opaque here. -/
structure SearchCtx where
  mm : String → String → Bool
  pattern : String
  excludePatterns : List String
  maxDepth : Nat
  maxResults : Nat

/-- Render path segments the way `path.relative` renders them here. -/
def renderPath (segs : List String) : String := String.intercalate "/" segs

/-- The exclusion test of file-utils.ts lines 54-58: a bare name becomes
a `**/name/**` glob, a pattern containing a wildcard is used as-is. -/
def shouldExclude (ctx : SearchCtx) (relPath : List String) : Bool :=
  ctx.excludePatterns.any fun pat =>
    let globPattern :=
      if textIncludes (toText "*") (toText pat) then pat
      else "**/" ++ pat ++ "/**"
    ctx.mm (renderPath relPath) globPattern

/-- ASCII lowercase of one character (JavaScript `toLowerCase` on the
ASCII range relevant to file names here). -/
def toLowerChar (c : Char) : Char :=
  if 'A' ≤ c ∧ c ≤ 'Z' then Char.ofNat (c.toNat + 32) else c

/-- The name test of file-utils.ts line 64:
`entry.name.toLowerCase().includes(pattern.toLowerCase())`. -/
def nameMatches (pattern name : String) : Bool :=
  textIncludes ((toText pattern).map toLowerChar) ((toText name).map toLowerChar)

mutual

/-- The recursive `search(currentPath, currentDepth)` of file-utils.ts
lines 38-81: stop when the depth limit or the result cap is reached,
otherwise list the directory (recording the readdir call) and iterate
over its entries. -/
def searchDir (ctx : SearchCtx) (dirPath rel : List String)
    (entries : List FSEntry) (depth : Nat) (st : SearchState) : SearchState :=
  if ctx.maxDepth ≤ depth then st
  else if ctx.maxResults ≤ st.results.length then st
  else
    searchLoop ctx dirPath rel entries depth
      { st with listed := st.listed ++ [(dirPath, depth)] }
termination_by (sizeOf entries, 1)

/-- The push-then-early-return step of file-utils.ts lines 64-72: push
the matching full path while below the cap; the returned flag is true
when the loop must `return` (cap reached right after a match). -/
def pushMatch (ctx : SearchCtx) (fullPath : FsPath) (matched : Bool)
    (st : SearchState) : SearchState × Bool :=
  if matched then
    let st1 :=
      if st.results.length < ctx.maxResults then
        { st with results := st.results ++ [fullPath] }
      else st
    (st1, decide (ctx.maxResults ≤ st1.results.length))
  else (st, false)

/-- The `for (const entry of entries)` body of file-utils.ts lines
50-80, one case per entry kind: skip excluded entries; push a name match
while below the cap and return early when the cap is reached right after
a match; recurse into subdirectories only while below the cap. -/
def searchLoop (ctx : SearchCtx) (dirPath rel : List String)
    (entries : List FSEntry) (depth : Nat) (st : SearchState) : SearchState :=
  match entries with
  | [] => st
  | .file n :: rest =>
    if shouldExclude ctx (rel ++ [n]) then
      searchLoop ctx dirPath rel rest depth st
    else
      match pushMatch ctx (dirPath ++ [n]) (nameMatches ctx.pattern n) st with
      | (st1, true) => st1
      | (st1, false) => searchLoop ctx dirPath rel rest depth st1
  | .dir n sub :: rest =>
    if shouldExclude ctx (rel ++ [n]) then
      searchLoop ctx dirPath rel rest depth st
    else
      match pushMatch ctx (dirPath ++ [n]) (nameMatches ctx.pattern n) st with
      | (st1, true) => st1
      | (st1, false) =>
        searchLoop ctx dirPath rel rest depth
          (if st1.results.length < ctx.maxResults then
            searchDir ctx (dirPath ++ [n]) (rel ++ [n]) sub (depth + 1) st1
          else st1)
termination_by (sizeOf entries, 0)

end

/-- Embedding of `searchFiles` (file-utils.ts lines 29-85): start the
walk at the root with depth 0 and empty results. -/
def searchFiles (ctx : SearchCtx) (rootPath : FsPath)
    (rootEntries : List FSEntry) : SearchState :=
  searchDir ctx rootPath [] rootEntries 0 ⟨[], []⟩

section Theorems

theorem list_any_isPrefixOf_false {roots : List FsPath} {p : FsPath}
    (h : ∀ root ∈ roots, root.isPrefixOf p = false) :
    (roots.any fun root => root.isPrefixOf p) = false := by
  simp only [List.any_eq_false]
  intro x hx
  simp [h x hx]

/-- C1: for every candidate path whose canonical resolution (collapsing
`..` segments and resolving symlinks, however many hops) lies strictly
outside every allowed root, `validatePath` returns a rejection (the
rejection class `PathRejected`) and never a validated path; in particular,
with allowed root `/sandbox`, the request `/sandbox/../etc/passwd` is
rejected whatever the existence oracle says about the filesystem. -/
theorem validatePath_rejects_outside :
    (∀ fuel allowedDirectories links cache follow existsFn checkParentExists
        candidate p,
      canonicalResolution (effStep links cache follow) fuel candidate = .ok p →
      (∀ root ∈ allowedDirectories, root.isPrefixOf p = false) →
      ∃ r, validatePath fuel allowedDirectories links cache follow existsFn
        checkParentExists candidate = .error r)
    ∧ (∀ existsFn : FsPath → Bool, ∃ r,
        validatePath 16 [["sandbox"]] (fun _ => none) (fun _ => none) true
          existsFn true ["sandbox", "..", "etc", "passwd"] = .error r) := by
  constructor
  · intro fuel roots links cache follow existsFn cpe candidate p hres houtside
    rw [canonicalResolution] at hres
    by_cases hpar : cpe = true ∧ ¬ existsFn p.dropLast = true
    · exact ⟨.notFound, by
        simp only [validatePath, hres]
        rw [if_pos hpar]⟩
    · refine ⟨.outsideSandbox, ?_⟩
      simp only [validatePath, hres]
      rw [if_neg hpar, list_any_isPrefixOf_false houtside]
      simp
  · intro existsFn
    by_cases h : existsFn ["etc"] = true
    · exact ⟨.outsideSandbox, by simp [validatePath, resolvePath, effStep, lexCanonAbs, h]⟩
    · exact ⟨.notFound, by simp [validatePath, resolvePath, effStep, lexCanonAbs, h]⟩

/-- Witness for C1: a concrete canonical resolution outside the only
allowed root is rejected. -/
theorem validatePath_rejects_outside_witness :
    ∃ r, validatePath 4 [["a"]] (fun _ => none) (fun _ => none) true
      (fun _ => true) true ["b"] = .error r :=
  validatePath_rejects_outside.1 4 [["a"]] (fun _ => none) (fun _ => none)
    true (fun _ => true) true ["b"] ["b"] rfl (by decide)

/-- C4 (code bug): on an existing target file with neither the edit flag
nor fullAccess granted, `handleModifyFile` reports the catch-clause
error `file does not exist` — not the permission-denied error its try
block throws — because that throw is swallowed by the catch-all; the
content of the target file is unchanged. -/
theorem handleModifyFile_perm_denied_reports_not_found :
    handleModifyFile ⟨false, false, false, false, false, false⟩
      ⟨16, [["sandbox"]], fun _ => none, fun _ => none, true⟩
      { files := [(["sandbox", "f"], toText "data")], dirs := [[], ["sandbox"]] }
      ["sandbox", "f"] (toText "new")
      = (.error "Cannot modify file: file does not exist",
         { files := [(["sandbox", "f"], toText "data")], dirs := [[], ["sandbox"]] })
    ∧ FSState.fileExists
        { files := [(["sandbox", "f"], toText "data")], dirs := [[], ["sandbox"]] }
        ["sandbox", "f"] = true
    ∧ modifyTryBlock ⟨false, false, false, false, false, false⟩
        { files := [(["sandbox", "f"], toText "data")], dirs := [[], ["sandbox"]] }
        ["sandbox", "f"] (toText "new")
      = .error "Cannot modify file: edit permission not granted (requires --allow-edit)" :=
  ⟨rfl, rfl, rfl⟩

/-- C2 counterexample: a move_file request whose destination already
exists does not fail with an AlreadyExists error — `handleMoveFile`
succeeds and silently replaces the destination (and removes the
source). -/
theorem handleMoveFile_overwrites_existing_destination :
    FSState.fileExists
      { files := [(["sandbox", "a"], toText "x"), (["sandbox", "b"], toText "y")],
        dirs := [[], ["sandbox"]] } ["sandbox", "b"] = true
    ∧ handleMoveFile ⟨false, false, true, false, false, false⟩
        ⟨16, [["sandbox"]], fun _ => none, fun _ => none, true⟩
        { files := [(["sandbox", "a"], toText "x"), (["sandbox", "b"], toText "y")],
          dirs := [[], ["sandbox"]] }
        ["sandbox", "a"] ["sandbox", "b"]
      = (.ok "Successfully moved file",
         { files := [(["sandbox", "b"], toText "x")], dirs := [[], ["sandbox"]] }) :=
  ⟨rfl, rfl⟩

/-- C2 (amended): `handleMoveFile` performs no destination-existence
check at all: with the move capability granted and both paths validated,
it fails exactly when the destination parent does not exist (leaving
the store untouched), and otherwise renames — replacing any existing
destination file. -/
theorem handleMoveFile_dest_parent_gate :
    ∀ perms ctx st source destination vs vd,
      (perms.move = true ∨ perms.fullAccess = true) →
      SandboxCtx.validate ctx st true source = .ok vs →
      SandboxCtx.validate ctx st false destination = .ok vd →
      (st.entryExists vd.dropLast = false →
        handleMoveFile perms ctx st source destination =
          (.error "Destination parent directory does not exist", st))
      ∧ (∀ c, st.entryExists vd.dropLast = true → st.readFile vs = some c →
        handleMoveFile perms ctx st source destination =
          (.ok "Successfully moved file",
            { st with files := ((st.files.filter fun f => f.1 ≠ vs).filter
                fun f => f.1 ≠ vd) ++ [(vd, c)] })) := by
  intro perms ctx st source destination vs vd hperm hs hd
  have hcond : ¬ ¬ (perms.move = true ∨ perms.fullAccess = true) := not_not_intro hperm
  constructor
  · intro hpar
    simp only [handleMoveFile, if_neg hcond, hs, hd, hpar]
    simp
  · intro c hpar hread
    simp only [handleMoveFile, if_neg hcond, hs, hd, hpar]
    simp only [FSState.renameFile, hread]
    simp

/-- Witness for C2 (amended): the success branch at a concrete state
whose destination already holds a file. -/
theorem handleMoveFile_dest_parent_gate_witness :
    handleMoveFile ⟨false, false, true, false, false, false⟩
      ⟨8, [["r"]], fun _ => none, fun _ => none, true⟩
      { files := [(["r", "s"], toText "src"), (["r", "t"], toText "old")],
        dirs := [[], ["r"]] }
      ["r", "s"] ["r", "t"]
    = (.ok "Successfully moved file",
       { files := [(["r", "t"], toText "src")], dirs := [[], ["r"]] }) := by
  have h := (handleMoveFile_dest_parent_gate
    ⟨false, false, true, false, false, false⟩
    ⟨8, [["r"]], fun _ => none, fun _ => none, true⟩
    { files := [(["r", "s"], toText "src"), (["r", "t"], toText "old")],
      dirs := [[], ["r"]] }
    ["r", "s"] ["r", "t"] ["r", "s"] ["r", "t"]
    (Or.inl rfl) rfl rfl).2 (toText "src") rfl rfl
  exact h

/-- C5: the store is written only by a non-dry-run call whose every edit
matched: a dry run always returns the store untouched, a match failure
always returns the store untouched (whatever `dryRun` is), a successful
non-dry-run call stores exactly the final content of the edit loop, and
running a dry run twice on the same input is idempotent. -/
theorem applyFileEdits_write_discipline :
    ∀ (patch : Text → Text → Text) (store : Text) (edits : List EditOp),
      ((applyFileEdits patch store edits true).2 = store)
      ∧ (∀ e dryRun, applyEditsLoop (normalizeLineEndings store) edits = .error e →
          applyFileEdits patch store edits dryRun = (.error e, store))
      ∧ (∀ d s', applyFileEdits patch store edits false = (.ok d, s') →
          applyEditsLoop (normalizeLineEndings store) edits = .ok s')
      ∧ (applyFileEdits patch ((applyFileEdits patch store edits true).2) edits true
          = applyFileEdits patch store edits true) := by
  intro patch store edits
  refine ⟨?_, ?_, ?_, ?_⟩
  · cases h : applyEditsLoop (normalizeLineEndings store) edits with
    | error e => simp [applyFileEdits, h]
    | ok m => simp [applyFileEdits, h]
  · intro e dryRun h
    simp [applyFileEdits, h]
  · intro d s' h
    cases hl : applyEditsLoop (normalizeLineEndings store) edits with
    | error e =>
      rw [applyFileEdits] at h
      simp only [hl] at h
      exact absurd (congrArg Prod.fst h) (by simp)
    | ok m =>
      rw [applyFileEdits] at h
      simp only [hl] at h
      have := congrArg Prod.snd h
      simp at this
      exact congrArg Except.ok this
  · cases h : applyEditsLoop (normalizeLineEndings store) edits with
    | error e => simp [applyFileEdits, h]
    | ok m => simp [applyFileEdits, h]

/-- Witness for C5 at a concrete store and failing edit list. -/
theorem applyFileEdits_write_discipline_witness :
    applyFileEdits (fun a b => a ++ b) (toText "abc")
      [⟨toText "zzz", toText "y"⟩] false
    = (.error (toText "zzz"), toText "abc") :=
  ((applyFileEdits_write_discipline (fun a b => a ++ b) (toText "abc")
    [⟨toText "zzz", toText "y"⟩]).2.1 (toText "zzz") false rfl)

/-- C6 counterexample: JavaScript `String.prototype.replace` applies the
ECMA-262 GetSubstitution rules to the replacement even when the pattern
is a plain string, so a new text containing dollar sequences is not
inserted literally: on content `abc`, the edit whose old text is `b` and
whose new text is `$&$&` produces `abbc` (each `$&` expands to the
matched `b`), not the literal replacement `a$&$&c` the claim asserts. -/
theorem applyOneEdit_dollar_substitution :
    applyOneEdit (toText "abc") ⟨toText "b", toText "$&$&"⟩
      = some (toText "abbc", false)
    ∧ toText "abbc" ≠ toText "a$&$&c" :=
  ⟨rfl, by decide⟩

/-- C6 (amended): whenever the normalized old text of an edit occurs as
an exact substring of the current content, `applyOneEdit` takes the exact
branch and the fuzzy line-block matcher is not used (the returned flag is
`false`): the result replaces precisely the first (leftmost) occurrence
of the normalized old text with the GetSubstitution expansion of the
normalized new text — which is the normalized new text itself, inserted
literally, whenever it contains no dollar character. -/
theorem applyOneEdit_exact_first_occurrence :
    ∀ (content : Text) (e : EditOp),
      textIncludes (normalizeLineEndings e.oldText) content = true →
      ∃ pre post,
        content = pre ++ normalizeLineEndings e.oldText ++ post ∧
        applyOneEdit content e
          = some (pre ++ getSubstitution (normalizeLineEndings e.oldText) pre post
              (normalizeLineEndings e.newText) ++ post, false) ∧
        (∀ pre' post',
          content = pre' ++ normalizeLineEndings e.oldText ++ post' →
          pre.length ≤ pre'.length) ∧
        (¬ '$' ∈ normalizeLineEndings e.newText →
          getSubstitution (normalizeLineEndings e.oldText) pre post
            (normalizeLineEndings e.newText) = normalizeLineEndings e.newText) := by
  intro content e h
  have hsome : (replaceFirst? (normalizeLineEndings e.oldText)
      (normalizeLineEndings e.newText) content).isSome = true := by
    rw [replaceFirst?_isSome_iff, h]
  obtain ⟨m, hm⟩ := Option.isSome_iff_exists.mp hsome
  obtain ⟨pre, post, hsplit, hmval, hmin⟩ :=
    replaceFirst?_eq_some _ _ _ _ hm
  refine ⟨pre, post, hsplit, ?_, hmin,
    fun hnd => getSubstitution_no_dollar _ _ _ _ hnd⟩
  rw [applyOneEdit]
  simp only [h, if_pos, hm, hmval]

/-- Witness for C6 (amended) at a concrete content and dollar-free
edit. -/
theorem applyOneEdit_exact_first_occurrence_witness :
    ∃ pre post,
      toText "foo\nbar\n" = pre ++ normalizeLineEndings (toText "bar") ++ post ∧
      applyOneEdit (toText "foo\nbar\n") ⟨toText "bar", toText "baz"⟩
        = some (pre ++ getSubstitution (normalizeLineEndings (toText "bar")) pre post
            (normalizeLineEndings (toText "baz")) ++ post, false) ∧
      (∀ pre' post',
        toText "foo\nbar\n" = pre' ++ normalizeLineEndings (toText "bar") ++ post' →
        pre.length ≤ pre'.length) ∧
      (¬ '$' ∈ normalizeLineEndings (toText "baz") →
        getSubstitution (normalizeLineEndings (toText "bar")) pre post
          (normalizeLineEndings (toText "baz")) = normalizeLineEndings (toText "baz")) :=
  applyOneEdit_exact_first_occurrence (toText "foo\nbar\n")
    ⟨toText "bar", toText "baz"⟩ (by decide)

/-- C10: a successful non-dry-run call writes the line-ending-normalized
content even when the edit list is empty, so a no-op edit request on a
CRLF-stored file rewrites it with LF endings, changing the stored
bytes. -/
theorem applyFileEdits_noop_rewrites_normalized :
    (∀ (patch : Text → Text → Text) (store : Text),
      (applyFileEdits patch store [] false).2 = normalizeLineEndings store)
    ∧ (∀ patch : Text → Text → Text,
      (applyFileEdits patch (toText "a\r\nb\r\n") [] false).2 = toText "a\nb\n")
    ∧ toText "a\nb\n" ≠ toText "a\r\nb\r\n" := by
  refine ⟨?_, ?_, by decide⟩
  · intro patch store
    simp [applyFileEdits, applyEditsLoop]
  · intro patch
    simp [applyFileEdits, applyEditsLoop]
    decide

/-- Witness for C10 at a concrete patch function and CRLF store. -/
theorem applyFileEdits_noop_rewrites_normalized_witness :
    (applyFileEdits (fun a b => a ++ b) (toText "a\r\nb\r\n") [] false).2
      = toText "a\nb\n" :=
  applyFileEdits_noop_rewrites_normalized.2.1 (fun a b => a ++ b)

/-- C8 counterexample: on file content `"  indented\n"` with edit
`{old: "indented", new: "changed"}` the edit is located by the *exact
substring* branch (the old text occurs verbatim inside the indented
line), not by the fuzzy line-block matcher: the returned branch flag is
`false`, while the final content is indeed `"  changed\n"`. -/
theorem applyOneEdit_indented_uses_exact_branch :
    textIncludes (normalizeLineEndings (toText "indented")) (toText "  indented\n") = true
    ∧ applyOneEdit (toText "  indented\n") ⟨toText "indented", toText "changed"⟩
        = some (toText "  changed\n", false) :=
  ⟨rfl, rfl⟩

/-- C8 (amended): the resulting content of the scenario is `"  changed\n"`,
preserving the original two-space indentation, but the edit is located
by the exact substring match (`"indented"` occurs inside the line), so
the fuzzy matcher is never consulted; a non-dry-run request stores
exactly that content. -/
theorem applyFileEdits_indented_scenario :
    ∀ patch : Text → Text → Text,
      (applyFileEdits patch (toText "  indented\n")
        [⟨toText "indented", toText "changed"⟩] false).2 = toText "  changed\n"
      ∧ applyOneEdit (toText "  indented\n") ⟨toText "indented", toText "changed"⟩
          = some (toText "  changed\n", false) := by
  intro patch
  refine ⟨?_, rfl⟩
  simp only [applyFileEdits, applyEditsLoop]
  rfl

/-- Witness for C8 (amended) at a concrete patch function. -/
theorem applyFileEdits_indented_scenario_witness :
    (applyFileEdits (fun a b => a ++ b) (toText "  indented\n")
      [⟨toText "indented", toText "changed"⟩] false).2 = toText "  changed\n"
    ∧ applyOneEdit (toText "  indented\n") ⟨toText "indented", toText "changed"⟩
        = some (toText "  changed\n", false) :=
  applyFileEdits_indented_scenario (fun a b => a ++ b)

theorem applyOneEdit_normalized_congr (c : Text) (e₁ e₂ : EditOp)
    (ho : normalizeLineEndings e₁.oldText = normalizeLineEndings e₂.oldText)
    (hn : normalizeLineEndings e₁.newText = normalizeLineEndings e₂.newText) :
    applyOneEdit c e₁ = applyOneEdit c e₂ := by
  rw [applyOneEdit, applyOneEdit, ho, hn]

theorem applyEditsLoop_normalized_congr :
    ∀ (edits₁ edits₂ : List EditOp) (c : Text),
      edits₁.map (fun e => (normalizeLineEndings e.oldText, normalizeLineEndings e.newText))
        = edits₂.map (fun e => (normalizeLineEndings e.oldText, normalizeLineEndings e.newText)) →
      ∀ m, applyEditsLoop c edits₁ = .ok m ↔ applyEditsLoop c edits₂ = .ok m := by
  intro edits₁
  induction edits₁ with
  | nil =>
    intro edits₂ c hmap m
    cases edits₂ with
    | nil => exact Iff.rfl
    | cons e t => exact absurd hmap (by simp)
  | cons e₁ t₁ ih =>
    intro edits₂ c hmap m
    cases edits₂ with
    | nil => exact absurd hmap (by simp)
    | cons e₂ t₂ =>
      simp only [List.map_cons, List.cons.injEq, Prod.mk.injEq] at hmap
      have hone := applyOneEdit_normalized_congr c e₁ e₂ hmap.1.1 hmap.1.2
      rw [applyEditsLoop, applyEditsLoop, hone]
      cases happ : applyOneEdit c e₂ with
      | none => simp
      | some m' => exact ih t₂ m'.1 hmap.2 m

/-- C7: `applyFileEdits` normalizes all line endings before any
comparison, so two calls whose stored contents and edit texts agree up
to line-ending normalization behave identically: they succeed or fail
together with the same fenced diff, and a successful non-dry-run call
writes the same (normalized) final content for both. -/
theorem applyFileEdits_line_ending_invariant :
    ∀ (patch : Text → Text → Text) (dryRun : Bool)
      (store₁ store₂ : Text) (edits₁ edits₂ : List EditOp),
      normalizeLineEndings store₁ = normalizeLineEndings store₂ →
      edits₁.map (fun e => (normalizeLineEndings e.oldText, normalizeLineEndings e.newText))
        = edits₂.map (fun e => (normalizeLineEndings e.oldText, normalizeLineEndings e.newText)) →
      (∀ d, (applyFileEdits patch store₁ edits₁ dryRun).1 = .ok d ↔
            (applyFileEdits patch store₂ edits₂ dryRun).1 = .ok d)
      ∧ (∀ d s', applyFileEdits patch store₁ edits₁ false = (.ok d, s') →
            applyFileEdits patch store₂ edits₂ false = (.ok d, s')) := by
  intro patch dryRun store₁ store₂ edits₁ edits₂ hstore hmap
  have hloop := applyEditsLoop_normalized_congr edits₁ edits₂
    (normalizeLineEndings store₁) hmap
  constructor
  · intro d
    cases hl₁ : applyEditsLoop (normalizeLineEndings store₁) edits₁ with
    | ok m =>
      have hl₂ : applyEditsLoop (normalizeLineEndings store₂) edits₂ = .ok m := by
        rw [← hstore]
        exact (hloop m).mp hl₁
      rw [applyFileEdits, applyFileEdits, hl₁, hl₂, hstore]
    | error e₁ =>
      cases hl₂ : applyEditsLoop (normalizeLineEndings store₂) edits₂ with
      | ok m =>
        have : applyEditsLoop (normalizeLineEndings store₁) edits₁ = .ok m := by
          apply (hloop m).mpr
          rw [hstore]
          exact hl₂
        rw [hl₁] at this
        exact absurd this (by simp)
      | error e₂ =>
        rw [applyFileEdits, applyFileEdits, hl₁, hl₂]
        simp
  · intro d s' h₁
    cases hl₁ : applyEditsLoop (normalizeLineEndings store₁) edits₁ with
    | error e₁ =>
      rw [applyFileEdits, hl₁] at h₁
      exact absurd (congrArg Prod.fst h₁) (by simp)
    | ok m =>
      have hl₂ : applyEditsLoop (normalizeLineEndings store₂) edits₂ = .ok m := by
        rw [← hstore]
        exact (hloop m).mp hl₁
      rw [applyFileEdits, hl₁] at h₁
      rw [applyFileEdits, hl₂, ← hstore]
      exact h₁

/-- Witness for C7: a CRLF-stored file with a CRLF edit and its
LF-normalized counterpart produce the same result. -/
theorem applyFileEdits_line_ending_invariant_witness :
    applyFileEdits (fun a b => a ++ b) (toText "x\ny")
      [⟨toText "x\n", toText "z\n"⟩] false
    = (.ok (toText "\x60\x60\x60diff\nx\nyz\ny\x60\x60\x60\n\n"), toText "z\ny") :=
  (applyFileEdits_line_ending_invariant (fun a b => a ++ b) false
    (toText "x\r\ny") (toText "x\ny")
    [⟨toText "x\r\n", toText "z\r\n"⟩] [⟨toText "x\n", toText "z\n"⟩]
    (by decide) (by decide)).2
    (toText "\x60\x60\x60diff\nx\nyz\ny\x60\x60\x60\n\n") (toText "z\ny") rfl

/-- C3 counterexample: a rename_file request whose `newName` contains a
path separator relocates the file to a *different* directory than its
source — `path.join` happily descends into `sub` — so the same-directory
guarantee fails as stated. -/
theorem handleRenameFile_escapes_directory :
    handleRenameFile ⟨false, false, false, false, true, false⟩
      ⟨16, [["sandbox"]], fun _ => none, fun _ => none, true⟩
      { files := [(["sandbox", "f"], toText "x")],
        dirs := [[], ["sandbox"], ["sandbox", "sub"]] }
      ["sandbox", "f"] "sub/g"
    = (.ok "Successfully renamed file",
       { files := [(["sandbox", "sub", "g"], toText "x")],
         dirs := [[], ["sandbox"], ["sandbox", "sub"]] })
    ∧ (["sandbox", "sub", "g"] : FsPath).dropLast ≠ (["sandbox", "f"] : FsPath).dropLast :=
  ⟨rfl, by decide⟩

/-- A path segment that is not empty and not a dot segment. -/
def SegPlain (s : String) : Prop := s ≠ "" ∧ s ≠ "." ∧ s ≠ ".."

/-- A path all of whose segments are plain: the canonical paths. -/
def PathPlain (p : FsPath) : Prop := ∀ s ∈ p, SegPlain s

theorem pathPlain_append {p q : FsPath} (hp : PathPlain p) (hq : PathPlain q) :
    PathPlain (p ++ q) := by
  intro s hs
  rcases List.mem_append.mp hs with h | h
  · exact hp s h
  · exact hq s h

theorem pathPlain_dropLast {p : FsPath} (hp : PathPlain p) :
    PathPlain p.dropLast := by
  intro s hs
  exact hp s (List.dropLast_sublist p |>.mem hs)

theorem lexCanonAbs_foldl_plain :
    ∀ (segs : List String) (acc : FsPath), PathPlain acc →
      PathPlain (segs.foldl
        (fun acc s =>
          if s = "" ∨ s = "." then acc
          else if s = ".." then acc.dropLast
          else acc ++ [s]) acc) := by
  intro segs
  induction segs with
  | nil => intro acc h; exact h
  | cons s rest ih =>
    intro acc h
    rw [List.foldl_cons]
    by_cases h1 : s = "" ∨ s = "."
    · rw [if_pos h1]
      exact ih acc h
    · rw [if_neg h1]
      by_cases h2 : s = ".."
      · rw [if_pos h2]
        exact ih _ (pathPlain_dropLast h)
      · rw [if_neg h2]
        push_neg at h1
        refine ih _ (pathPlain_append h ?_)
        intro x hx
        rw [List.mem_singleton] at hx
        exact hx ▸ ⟨h1.1, h1.2, h2⟩

theorem lexCanonAbs_plain (segs : List String) : PathPlain (lexCanonAbs segs) :=
  lexCanonAbs_foldl_plain segs [] (by intro s hs; cases hs)

theorem lexCanonAbs_foldl_fixed :
    ∀ (segs : List String) (acc : FsPath), PathPlain segs →
      segs.foldl
        (fun acc s =>
          if s = "" ∨ s = "." then acc
          else if s = ".." then acc.dropLast
          else acc ++ [s]) acc = acc ++ segs := by
  intro segs
  induction segs with
  | nil => intro acc _; simp
  | cons s rest ih =>
    intro acc h
    have hs : SegPlain s := h s (List.mem_cons_self s rest)
    rw [List.foldl_cons, if_neg (by push_neg; exact ⟨hs.1, hs.2.1⟩), if_neg hs.2.2]
    rw [ih (acc ++ [s]) (fun x hx => h x (List.mem_cons_of_mem s hx))]
    simp

theorem lexCanonAbs_fixed {p : FsPath} (hp : PathPlain p) : lexCanonAbs p = p := by
  rw [lexCanonAbs, lexCanonAbs_foldl_fixed p [] hp]
  simp

theorem resolvePath_ok_plain :
    ∀ (step : FsPath → LinkStep) (fuel : Nat) (resolved rest p : FsPath),
      PathPlain resolved → PathPlain rest →
      resolvePath step fuel resolved rest = .ok p → PathPlain p := by
  intro step fuel
  induction fuel with
  | zero =>
    intro resolved rest p hres hrest h
    cases rest with
    | nil =>
      rw [resolvePath] at h
      simp only [Except.ok.injEq] at h
      exact h ▸ hres
    | cons s r =>
      rw [resolvePath] at h
      exact absurd h (by simp)
  | succ n ih =>
    intro resolved rest p hres hrest h
    cases rest with
    | nil =>
      rw [resolvePath] at h
      simp only [Except.ok.injEq] at h
      exact h ▸ hres
    | cons s r =>
      rw [resolvePath] at h
      have hs : SegPlain s := hrest s (List.mem_cons_self s r)
      have hr : PathPlain r := fun x hx => hrest x (List.mem_cons_of_mem s hx)
      cases hstep : step (resolved ++ [s]) with
      | notLink =>
        simp only [hstep] at h
        exact ih (resolved ++ [s]) r p
          (pathPlain_append hres (fun x hx => (List.mem_singleton.mp hx) ▸ hs)) hr h
      | reject =>
        simp only [hstep] at h
        exact absurd h (by simp)
      | target t =>
        simp only [hstep] at h
        exact ih [] (lexCanonAbs t ++ r) p (by intro x hx; cases hx)
          (pathPlain_append (lexCanonAbs_plain t) hr) h

theorem validatePath_ok_plain
    {fuel : Nat} {roots : List FsPath} {links cache : FsPath → Option FsPath}
    {follow : Bool} {existsFn : FsPath → Bool} {cpe : Bool}
    {candidate p : FsPath}
    (h : validatePath fuel roots links cache follow existsFn cpe candidate = .ok p) :
    PathPlain p := by
  rw [validatePath] at h
  cases hres : resolvePath (effStep links cache follow) fuel [] (lexCanonAbs candidate) with
  | error r =>
    simp only [hres] at h
    exact absurd h (by simp)
  | ok q =>
    simp only [hres] at h
    have hq : PathPlain q :=
      resolvePath_ok_plain _ fuel [] (lexCanonAbs candidate) q
        (by intro x hx; cases hx) (lexCanonAbs_plain candidate) hres
    by_cases h1 : cpe = true ∧ ¬ existsFn q.dropLast = true
    · rw [if_pos h1] at h
      exact absurd h (by simp)
    · rw [if_neg h1] at h
      by_cases h2 : (roots.any fun root => root.isPrefixOf q) = true
      · rw [if_pos h2] at h
        simp only [Except.ok.injEq] at h
        exact h ▸ hq
      · rw [if_neg h2] at h
        exact absurd h (by simp)

theorem resolvePath_no_links :
    ∀ (cache : FsPath → Option FsPath) (follow : Bool) (fuel : Nat)
      (resolved rest : FsPath), rest.length ≤ fuel →
      resolvePath (effStep (fun _ => none) cache follow) fuel resolved rest
        = .ok (resolved ++ rest) := by
  intro cache follow fuel
  induction fuel with
  | zero =>
    intro resolved rest hlen
    have : rest = [] := List.eq_nil_of_length_eq_zero (Nat.le_zero.mp hlen)
    rw [this, resolvePath]
    simp
  | succ n ih =>
    intro resolved rest hlen
    cases rest with
    | nil => rw [resolvePath]; simp
    | cons s r =>
      rw [resolvePath]
      simp only [effStep]
      rw [ih (resolved ++ [s]) r (by simpa using Nat.succ_le_succ_iff.mp hlen)]
      simp

/-- C3 (amended): when `newName` is a single plain segment (no path
separators, not a dot segment) — and the sandbox has no symlinks in play
plus enough resolution fuel — a rename_file request keeps the file in the
same directory as the validated source: the destination is exactly the
source directory extended by `newName`, an existing entry there yields
the already-exists failure with the store untouched, and a successful
rename moves the file to that same-directory destination.  A `newName`
containing separators or dot segments escapes this guarantee (see the
counterexample). -/
theorem handleRenameFile_same_directory :
    ∀ perms ctx st source newName vs,
      (perms.rename = true ∨ perms.fullAccess = true) →
      ctx.links = (fun _ => none) →
      SandboxCtx.validate ctx st true source = .ok vs →
      splitSlash newName = [newName] →
      newName ≠ "" → newName ≠ "." → newName ≠ ".." →
      vs.dropLast.length + 1 ≤ ctx.fuel →
      st.entryExists vs.dropLast = true →
      (ctx.allowedDirectories.any fun root =>
        root.isPrefixOf (vs.dropLast ++ [newName])) = true →
      (st.entryExists (vs.dropLast ++ [newName]) = true →
        handleRenameFile perms ctx st source newName
          = (.error "Cannot rename file: a file with the new name already exists in the directory", st))
      ∧ (∀ c, st.entryExists (vs.dropLast ++ [newName]) = false →
          st.readFile vs = some c →
          handleRenameFile perms ctx st source newName
            = (.ok "Successfully renamed file",
               { st with files := ((st.files.filter fun f => f.1 ≠ vs).filter
                   fun f => f.1 ≠ vs.dropLast ++ [newName])
                   ++ [(vs.dropLast ++ [newName], c)] })) := by
  intro perms ctx st source newName vs hperm hlinks hs hsplit h1 h2 h3 hfuel hpar hroot
  have hvsplain : PathPlain vs := validatePath_ok_plain hs
  have hdirplain := pathPlain_dropLast hvsplain
  have hnplain : SegPlain newName := ⟨h1, h2, h3⟩
  have hfullplain : PathPlain (vs.dropLast ++ [newName]) :=
    pathPlain_append hdirplain (fun x hx => (List.mem_singleton.mp hx) ▸ hnplain)
  have hdest : pathJoinName vs.dropLast newName = vs.dropLast ++ [newName] := by
    rw [pathJoinName, hsplit]
    exact lexCanonAbs_fixed hfullplain
  have hvd : SandboxCtx.validate ctx st true (vs.dropLast ++ [newName])
      = .ok (vs.dropLast ++ [newName]) := by
    rw [SandboxCtx.validate, validatePath, hlinks]
    rw [lexCanonAbs_fixed hfullplain]
    rw [resolvePath_no_links ctx.cache ctx.follow ctx.fuel [] _
      (by simpa using hfuel)]
    simp only [List.nil_append, List.dropLast_concat]
    rw [if_neg (by simp [hpar]), if_pos hroot]
  have hcond : ¬ ¬ (perms.rename = true ∨ perms.fullAccess = true) :=
    not_not_intro hperm
  constructor
  · intro hex
    simp only [handleRenameFile, if_neg hcond, hs, hdest, hvd, hex]
    simp
  · intro c hex hread
    simp only [handleRenameFile, if_neg hcond, hs, hdest, hvd, hex]
    simp only [FSState.renameFile, hread]
    simp

/-- Witness for C3 (amended): a plain `newName` renames within the same
directory at a concrete state. -/
theorem handleRenameFile_same_directory_witness :
    handleRenameFile ⟨false, false, false, false, true, false⟩
      ⟨8, [["r"]], fun _ => none, fun _ => none, true⟩
      { files := [(["r", "old"], toText "c")], dirs := [[], ["r"]] }
      ["r", "old"] "new"
    = (.ok "Successfully renamed file",
       { files := [(["r", "new"], toText "c")], dirs := [[], ["r"]] }) := by
  have h := (handleRenameFile_same_directory
    ⟨false, false, false, false, true, false⟩
    ⟨8, [["r"]], fun _ => none, fun _ => none, true⟩
    { files := [(["r", "old"], toText "c")], dirs := [[], ["r"]] }
    ["r", "old"] "new" ["r", "old"]
    (Or.inl rfl) rfl rfl (by decide) (by decide) (by decide) (by decide)
    (by decide) rfl (by decide)).2 (toText "c") rfl rfl
  exact h

theorem pushMatch_listed (ctx : SearchCtx) (fp : FsPath) (m : Bool)
    (st : SearchState) : (pushMatch ctx fp m st).1.listed = st.listed := by
  rw [pushMatch]
  cases m with
  | false => simp
  | true =>
    by_cases h : st.results.length < ctx.maxResults
    · simp [h]
    · simp [h]

theorem pushMatch_cap (ctx : SearchCtx) (fp : FsPath) (m : Bool)
    (st : SearchState) (h : ctx.maxResults ≤ st.results.length) :
    pushMatch ctx fp m st = (st, m) := by
  rw [pushMatch]
  cases m with
  | false => simp
  | true =>
    rw [if_pos rfl, if_neg (by omega)]
    simp [decide_eq_true_eq, h]

theorem pushMatch_len (ctx : SearchCtx) (fp : FsPath) (m : Bool)
    (st : SearchState) (h : st.results.length ≤ ctx.maxResults) :
    (pushMatch ctx fp m st).1.results.length ≤ ctx.maxResults := by
  rw [pushMatch]
  cases m with
  | false => simpa using h
  | true =>
    by_cases h1 : st.results.length < ctx.maxResults
    · simp [h1]
      omega
    · simpa [h1] using h

theorem searchDir_cap (ctx : SearchCtx) (dirPath rel : List String)
    (entries : List FSEntry) (depth : Nat) (st : SearchState)
    (h : ctx.maxResults ≤ st.results.length) :
    searchDir ctx dirPath rel entries depth st = st := by
  rw [searchDir]
  by_cases h1 : ctx.maxDepth ≤ depth
  · rw [if_pos h1]
  · rw [if_neg h1, if_pos h]

theorem searchLoop_cap (ctx : SearchCtx) (dirPath rel : List String) :
    ∀ (entries : List FSEntry) (depth : Nat) (st : SearchState),
      ctx.maxResults ≤ st.results.length →
      searchLoop ctx dirPath rel entries depth st = st := by
  intro entries
  induction entries with
  | nil => intro depth st h; rw [searchLoop]
  | cons e rest ih =>
    intro depth st h
    cases e with
    | file n =>
      rw [searchLoop]
      by_cases hex : shouldExclude ctx (rel ++ [n]) = true
      · rw [if_pos hex]
        exact ih depth st h
      · rw [if_neg hex, pushMatch_cap ctx _ _ st h]
        cases hm : nameMatches ctx.pattern n with
        | true => rfl
        | false => exact ih depth st h
    | dir n sub =>
      rw [searchLoop]
      by_cases hex : shouldExclude ctx (rel ++ [n]) = true
      · rw [if_pos hex]
        exact ih depth st h
      · rw [if_neg hex, pushMatch_cap ctx _ _ st h]
        cases hm : nameMatches ctx.pattern n with
        | true => rfl
        | false =>
          simp only []
          rw [if_neg (show ¬ st.results.length < ctx.maxResults by omega)]
          exact ih depth st h

theorem search_results_le (ctx : SearchCtx) :
    ∀ (n : Nat) (entries : List FSEntry), sizeOf entries ≤ n →
      ∀ (dirPath rel : List String) (depth : Nat) (st : SearchState),
        st.results.length ≤ ctx.maxResults →
        (searchLoop ctx dirPath rel entries depth st).results.length ≤ ctx.maxResults
        ∧ (searchDir ctx dirPath rel entries depth st).results.length ≤ ctx.maxResults := by
  intro n
  induction n using Nat.strong_induction_on with
  | _ n ih =>
    intro entries hsize dirPath rel depth st hst
    have hloop : ∀ (dirPath rel : List String) (depth : Nat) (st : SearchState),
        st.results.length ≤ ctx.maxResults →
        (searchLoop ctx dirPath rel entries depth st).results.length ≤ ctx.maxResults := by
      intro dirPath rel depth st hst
      cases entries with
      | nil => rw [searchLoop]; exact hst
      | cons e rest =>
        have hrest : sizeOf rest < n := by
          have : sizeOf rest < sizeOf (e :: rest) := by simp
          omega
        cases e with
        | file m =>
          rw [searchLoop]
          by_cases hex : shouldExclude ctx (rel ++ [m]) = true
          · rw [if_pos hex]
            exact (ih (sizeOf rest) hrest rest le_rfl dirPath rel depth st hst).1
          · rw [if_neg hex]
            have hlen := pushMatch_len ctx (dirPath ++ [m]) (nameMatches ctx.pattern m) st hst
            cases hpm : pushMatch ctx (dirPath ++ [m]) (nameMatches ctx.pattern m) st with
            | mk st1 flag =>
              rw [hpm] at hlen
              cases flag with
              | true => exact hlen
              | false =>
                exact (ih (sizeOf rest) hrest rest le_rfl dirPath rel depth st1 hlen).1
        | dir m sub =>
          rw [searchLoop]
          by_cases hex : shouldExclude ctx (rel ++ [m]) = true
          · rw [if_pos hex]
            exact (ih (sizeOf rest) hrest rest le_rfl dirPath rel depth st hst).1
          · rw [if_neg hex]
            have hlen := pushMatch_len ctx (dirPath ++ [m]) (nameMatches ctx.pattern m) st hst
            cases hpm : pushMatch ctx (dirPath ++ [m]) (nameMatches ctx.pattern m) st with
            | mk st1 flag =>
              rw [hpm] at hlen
              cases flag with
              | true => exact hlen
              | false =>
                have hsub : sizeOf sub < n := by
                  have : sizeOf sub < sizeOf (FSEntry.dir m sub :: rest) := by
                    simp
                    omega
                  omega
                simp only []
                by_cases hrec : st1.results.length < ctx.maxResults
                · rw [if_pos hrec]
                  have hdirlen := (ih (sizeOf sub) hsub sub le_rfl
                    (dirPath ++ [m]) (rel ++ [m]) (depth + 1) st1 hlen).2
                  exact (ih (sizeOf rest) hrest rest le_rfl dirPath rel depth _ hdirlen).1
                · rw [if_neg hrec]
                  exact (ih (sizeOf rest) hrest rest le_rfl dirPath rel depth st1 hlen).1
    refine ⟨hloop dirPath rel depth st hst, ?_⟩
    rw [searchDir]
    by_cases h1 : ctx.maxDepth ≤ depth
    · rw [if_pos h1]; exact hst
    · rw [if_neg h1]
      by_cases h2 : ctx.maxResults ≤ st.results.length
      · rw [if_pos h2]; exact hst
      · rw [if_neg h2]
        exact hloop dirPath rel depth _ (by simpa using hst)

theorem search_listed_depth (ctx : SearchCtx) :
    ∀ (n : Nat) (entries : List FSEntry), sizeOf entries ≤ n →
      ∀ (dirPath rel : List String) (depth : Nat) (st : SearchState)
        (x : FsPath × Nat),
        (x ∈ (searchLoop ctx dirPath rel entries depth st).listed →
          x ∈ st.listed ∨ x.2 < ctx.maxDepth)
        ∧ (x ∈ (searchDir ctx dirPath rel entries depth st).listed →
          x ∈ st.listed ∨ x.2 < ctx.maxDepth) := by
  intro n
  induction n using Nat.strong_induction_on with
  | _ n ih =>
    intro entries hsize dirPath rel depth st x
    have hloop : ∀ (dirPath rel : List String) (depth : Nat) (st : SearchState),
        x ∈ (searchLoop ctx dirPath rel entries depth st).listed →
        x ∈ st.listed ∨ x.2 < ctx.maxDepth := by
      intro dirPath rel depth st hx
      cases entries with
      | nil => rw [searchLoop] at hx; exact Or.inl hx
      | cons e rest =>
        have hrest : sizeOf rest < n := by
          have : sizeOf rest < sizeOf (e :: rest) := by simp
          omega
        cases e with
        | file m =>
          rw [searchLoop] at hx
          by_cases hex : shouldExclude ctx (rel ++ [m]) = true
          · rw [if_pos hex] at hx
            exact (ih (sizeOf rest) hrest rest le_rfl dirPath rel depth st x).1 hx
          · rw [if_neg hex] at hx
            have hlst := pushMatch_listed ctx (dirPath ++ [m]) (nameMatches ctx.pattern m) st
            cases hpm : pushMatch ctx (dirPath ++ [m]) (nameMatches ctx.pattern m) st with
            | mk st1 flag =>
              rw [hpm] at hx hlst
              cases flag with
              | true => exact Or.inl (hlst ▸ hx)
              | false =>
                rcases (ih (sizeOf rest) hrest rest le_rfl dirPath rel depth st1 x).1 hx with h | h
                · exact Or.inl (hlst ▸ h)
                · exact Or.inr h
        | dir m sub =>
          rw [searchLoop] at hx
          by_cases hex : shouldExclude ctx (rel ++ [m]) = true
          · rw [if_pos hex] at hx
            exact (ih (sizeOf rest) hrest rest le_rfl dirPath rel depth st x).1 hx
          · rw [if_neg hex] at hx
            have hlst := pushMatch_listed ctx (dirPath ++ [m]) (nameMatches ctx.pattern m) st
            cases hpm : pushMatch ctx (dirPath ++ [m]) (nameMatches ctx.pattern m) st with
            | mk st1 flag =>
              rw [hpm] at hx hlst
              cases flag with
              | true => exact Or.inl (hlst ▸ hx)
              | false =>
                have hsub : sizeOf sub < n := by
                  have : sizeOf sub < sizeOf (FSEntry.dir m sub :: rest) := by
                    simp
                    omega
                  omega
                simp only [] at hx
                by_cases hrec : st1.results.length < ctx.maxResults
                · rw [if_pos hrec] at hx
                  rcases (ih (sizeOf rest) hrest rest le_rfl dirPath rel depth _ x).1 hx with h | h
                  · rcases (ih (sizeOf sub) hsub sub le_rfl
                      (dirPath ++ [m]) (rel ++ [m]) (depth + 1) st1 x).2 h with h' | h'
                    · exact Or.inl (hlst ▸ h')
                    · exact Or.inr h'
                  · exact Or.inr h
                · rw [if_neg hrec] at hx
                  rcases (ih (sizeOf rest) hrest rest le_rfl dirPath rel depth st1 x).1 hx with h | h
                  · exact Or.inl (hlst ▸ h)
                  · exact Or.inr h
    refine ⟨hloop dirPath rel depth st, ?_⟩
    intro hx
    rw [searchDir] at hx
    by_cases h1 : ctx.maxDepth ≤ depth
    · rw [if_pos h1] at hx; exact Or.inl hx
    · rw [if_neg h1] at hx
      by_cases h2 : ctx.maxResults ≤ st.results.length
      · rw [if_pos h2] at hx; exact Or.inl hx
      · rw [if_neg h2] at hx
        rcases hloop dirPath rel depth _ hx with h | h
        · simp only [List.mem_append, List.mem_singleton] at h
          rcases h with h | h
          · exact Or.inl h
          · exact Or.inr (by rw [h]; simpa using Nat.lt_of_not_le h1)
        · exact Or.inr h

/-- C9: `searchFiles` returns at most `maxResults` entries; every
`readdir` call it performs happens at a depth strictly below `maxDepth`
(a directory at the limit depth is never listed); once the result cap is
reached both the directory visit and the sibling loop are the identity
(no entries added, no further filesystem calls); and on a tree with five
matching files at depth 1 under `maxDepth = 2, maxResults = 1` the walk
returns exactly one result and performs its only `readdir` at depth 0. -/
theorem searchFiles_bounded :
    (∀ (ctx : SearchCtx) (rootPath : FsPath) (rootEntries : List FSEntry),
      (searchFiles ctx rootPath rootEntries).results.length ≤ ctx.maxResults)
    ∧ (∀ (ctx : SearchCtx) (rootPath : FsPath) (rootEntries : List FSEntry),
      ∀ x ∈ (searchFiles ctx rootPath rootEntries).listed, x.2 < ctx.maxDepth)
    ∧ (∀ (ctx : SearchCtx) (dirPath rel : List String) (entries : List FSEntry)
        (depth : Nat) (st : SearchState),
      ctx.maxResults ≤ st.results.length →
      searchDir ctx dirPath rel entries depth st = st
      ∧ searchLoop ctx dirPath rel entries depth st = st)
    ∧ searchFiles ⟨fun _ _ => false, "f", [], 2, 1⟩ ["sandbox"]
        [.file "f1", .file "f2", .file "f3", .file "f4", .file "f5"]
      = ⟨[["sandbox", "f1"]], [(["sandbox"], 0)]⟩ := by
  refine ⟨?_, ?_, ?_, ?_⟩
  · intro ctx rootPath rootEntries
    exact (search_results_le ctx (sizeOf rootEntries) rootEntries le_rfl
      rootPath [] 0 ⟨[], []⟩ (by simp)).2
  · intro ctx rootPath rootEntries x hx
    rcases (search_listed_depth ctx (sizeOf rootEntries) rootEntries le_rfl
      rootPath [] 0 ⟨[], []⟩ x).2 hx with h | h
    · exact absurd h (List.not_mem_nil x)
    · exact h
  · intro ctx dirPath rel entries depth st h
    exact ⟨searchDir_cap ctx dirPath rel entries depth st h,
      searchLoop_cap ctx dirPath rel entries depth st h⟩
  · simp only [searchFiles, searchDir, searchLoop, shouldExclude, pushMatch]
    decide

/-- Witness for C9: the cap-stop conjunct at a concrete saturated
state. -/
theorem searchFiles_bounded_witness :
    searchDir ⟨fun _ _ => false, "a", [], 3, 0⟩ ["r"] [] [.file "a"] 0 ⟨[], []⟩
      = ⟨[], []⟩
    ∧ searchLoop ⟨fun _ _ => false, "a", [], 3, 0⟩ ["r"] [] [.file "a"] 0 ⟨[], []⟩
      = ⟨[], []⟩ :=
  searchFiles_bounded.2.2.1 ⟨fun _ _ => false, "a", [], 3, 0⟩ ["r"] []
    [.file "a"] 0 ⟨[], []⟩ (by decide)

end Theorems

end MCPFS
